import Mathlib

/-!
Verification of the discretized longitudinal trajectory-planning notebook.

The notebook discretizes a position trajectory `s` into `N` samples over a
horizon `T`, derives velocity / acceleration / jerk by finite differences,
builds a quadratic cost `J`, inequality constraint functions for the physical
limits, and bound constraints pinning the initial state.  Real numbers in the
source (Python floats) are modelled as rationals `ℚ`; `np.inf` as an absent
upper bound (`Option.none`).  The globals `T`, `N`, `del_t`, `v_des`, `v_max`,
`a_max`, `vel_init`, `acc_init` of the notebook session become explicit
parameters of the embedded functions, so that the universally quantified
claims can be stated.
-/

namespace TP

/-- A trajectory is the ordered sequence of position samples `s 0, …, s (N-1)`. -/
abbrev Trajectory := List ℚ

/-- Source: `del_t = T/(N-1)` with horizon `T` and sample count `N`. -/
def del_t (T : ℚ) (N : ℕ) : ℚ := T / ((N : ℚ) - 1)

/-- Source: `def v(x): return (x[1:] - x[:-1])/del_t` — first differences of the
position samples divided by the time step. -/
def v (dt : ℚ) (x : Trajectory) : List ℚ :=
  List.zipWith (fun p q => (p - q) / dt) x.tail x

/-- Source: `def a(x): v1 = v(x); return (v1[1:] - v1[:-1])/del_t`. -/
def a (dt : ℚ) (x : Trajectory) : List ℚ :=
  List.zipWith (fun p q => (p - q) / dt) (v dt x).tail (v dt x)

/-- Source: `def j(x): a1 = a(x); return (a1[1:] - a1[:-1])/del_t`. -/
def j (dt : ℚ) (x : Trajectory) : List ℚ :=
  List.zipWith (fun p q => (p - q) / dt) (a dt x).tail (a dt x)

/-- Source: `def J(x): return 0.5*(sum((v(x) - v_des)**2) + sum(a(x)**2) +
sum(j(x)**2))*del_t`.  Note: the code applies no weights to the three sums. -/
def J (dt v_des : ℚ) (x : Trajectory) : ℚ :=
  1/2 * (((v dt x).map (fun t => (t - v_des)^2)).sum
       + ((a dt x).map (fun t => t^2)).sum
       + ((j dt x).map (fun t => t^2)).sum) * dt

/-- The cost formula documented in the notebook markdown directly above the
code cell for `J` (and in the design document §4.2): the three sums carry the
weights `w_v`, `w_a`, `w_j`:
`J = 0.5·Δt·( w_v·Σ(v_i − v_des)² + w_a·Σ a_i² + w_j·Σ j_i² )`. -/
def Jweighted (w_v w_a w_j dt v_des : ℚ) (x : Trajectory) : ℚ :=
  1/2 * (w_v * ((v dt x).map (fun t => (t - v_des)^2)).sum
       + w_a * ((a dt x).map (fun t => t^2)).sum
       + w_j * ((j dt x).map (fun t => t^2)).sum) * dt

/-- Source: `def cons_vel(x): return v_max - v(x)` (the global `v_max = 30`
becomes the parameter `vmax`). -/
def cons_vel (vmax dt : ℚ) (x : Trajectory) : List ℚ :=
  (v dt x).map (fun t => vmax - t)

/-- Source: `def cons_acc(x): return a_max - a(x)` (the global `a_max = 15`
becomes the parameter `amax`). -/
def cons_acc (amax dt : ℚ) (x : Trajectory) : List ℚ :=
  (a dt x).map (fun t => amax - t)

/-- Source: `bounds = [(0, np.inf) for i in range(N)]; bounds[0] = (0, 0);
bounds[1] = (vel_init*del_t, vel_init*del_t);
bounds[2] = (acc_init*del_t**2 + 2*vel_init*del_t, …)`.  Each entry is a lower
bound paired with an optional upper bound, `none` standing for `np.inf`; the
globals `vel_init`, `acc_init` become the parameters `v0`, `a0`. -/
def bounds (v0 a0 dt : ℚ) (N : ℕ) : List (ℚ × Option ℚ) :=
  (((List.range N).map (fun _ => ((0 : ℚ), (none : Option ℚ)))).set 0
      (0, some 0)).set 1 (v0 * dt, some (v0 * dt)) |>.set 2
      (a0 * dt^2 + 2 * v0 * dt, some (a0 * dt^2 + 2 * v0 * dt))

/-- An obstacle: time-index window `[t_a, t_b]` and position band `[s_a, s_b]`. -/
structure Obstacle where
  t_a : ℕ
  t_b : ℕ
  s_a : ℚ
  s_b : ℚ

/-- Modelled from the spec: the source's obstacle-position-constraint helper
`pos_ves` is an empty stub (`def pos_ves(x): return`).  Following §4.3 of the
design document, mode `true` (stay above) emits `s i − s_b` and mode `false`
(stay below) emits `s_a − s i`, for every sample index `i` in `[t_a, t_b]`;
the trajectory satisfies the constraint when every emitted value is `≥ 0`. -/
def pos_ves (ob : Obstacle) (mode : Bool) (x : Trajectory) : List ℚ :=
  (List.range (ob.t_b + 1 - ob.t_a)).map (fun k =>
    if mode then x.getD (ob.t_a + k) 0 - ob.s_b
    else ob.s_a - x.getD (ob.t_a + k) 0)

/-- The input-validation failures of §7 of the design document. -/
inductive PlanError where
  | InsufficientSamples
  | InvalidObstacleWindow
  | TooManyObstacles
  | NoFeasibleMode
deriving DecidableEq

/-- Modelled from the spec: no planning-call wrapper exists in the source
notebook; per §4.1/§7, the kinematic model rejects a trajectory of fewer than
4 samples with `InsufficientSamples` and otherwise returns the three derived
sequences, with no other error case. -/
def KinematicModel (dt : ℚ) (x : Trajectory) :
    Except PlanError (List ℚ × List ℚ × List ℚ) :=
  if x.length < 4 then Except.error PlanError.InsufficientSamples
  else Except.ok (v dt x, a dt x, j dt x)

/-- Modelled from the spec: all `2^M` boolean obstacle-mode assignments in
binary counting order (§4.4); no enumeration code exists in the source
notebook ("The implementation details will follow..."). -/
def allModes : ℕ → List (List Bool)
  | 0 => [[]]
  | n + 1 => (allModes n).map (fun bs => false :: bs)
      ++ (allModes n).map (fun bs => true :: bs)

/-- The configurable cap of §4.4 on the number of obstacles (example value). -/
def modeCap : ℕ := 20

/-- Modelled from the spec: the mode enumerator of §4.4 — fails with
`TooManyObstacles` above the cap, otherwise yields all `2^M` assignments. -/
def ModeEnumerator (M : ℕ) : Except PlanError (List (List Bool)) :=
  if M > modeCap then Except.error PlanError.TooManyObstacles
  else Except.ok (allModes M)

/-! ### Helper lemmas about the first-difference pattern -/

lemma dq_length (dt : ℚ) (y : List ℚ) :
    (List.zipWith (fun p q => (p - q) / dt) y.tail y).length = y.length - 1 := by
  simp [List.length_zipWith]

lemma dq_getD (dt : ℚ) (y : List ℚ) (i : ℕ) (h : i < y.length - 1) :
    (List.zipWith (fun p q => (p - q) / dt) y.tail y).getD i 0
      = (y.getD (i + 1) 0 - y.getD i 0) / dt := by
  have h1 : i < (List.zipWith (fun p q => (p - q) / dt) y.tail y).length := by
    rw [dq_length]; exact h
  have h2 : i < y.tail.length := by simp; omega
  have h3 : i < y.length := by omega
  have h4 : i + 1 < y.length := by omega
  rw [List.getD_eq_getElem _ _ h1, List.getD_eq_getElem _ _ h3,
    List.getD_eq_getElem _ _ h4, List.getElem_zipWith, List.getElem_tail]

lemma v_length (dt : ℚ) (x : Trajectory) : (v dt x).length = x.length - 1 :=
  dq_length dt x

lemma a_length (dt : ℚ) (x : Trajectory) : (a dt x).length = x.length - 2 := by
  have := dq_length dt (v dt x)
  rw [a, this, v_length]
  omega

lemma j_length (dt : ℚ) (x : Trajectory) : (j dt x).length = x.length - 3 := by
  have := dq_length dt (a dt x)
  rw [j, this, a_length]
  omega

/-- **C2.** For every trajectory of length `N ≥ 4`, the kinematic model yields
`velocity` of length `N−1` with `velocity i = (s (i+1) − s i)/Δt`,
`acceleration` of length `N−2` and `jerk` of length `N−3`, each the first
difference of the level below divided by `Δt = T/(N−1)`. -/
theorem kinematics_shape_and_formulas (T : ℚ) (x : Trajectory) (N : ℕ)
    (hN : x.length = N) (h4 : 4 ≤ N) :
    ((v (del_t T N) x).length = N - 1
      ∧ (a (del_t T N) x).length = N - 2
      ∧ (j (del_t T N) x).length = N - 3)
    ∧ (∀ i, i < N - 1 → (v (del_t T N) x).getD i 0
        = (x.getD (i + 1) 0 - x.getD i 0) / del_t T N)
    ∧ (∀ i, i < N - 2 → (a (del_t T N) x).getD i 0
        = ((v (del_t T N) x).getD (i + 1) 0 - (v (del_t T N) x).getD i 0)
            / del_t T N)
    ∧ (∀ i, i < N - 3 → (j (del_t T N) x).getD i 0
        = ((a (del_t T N) x).getD (i + 1) 0 - (a (del_t T N) x).getD i 0)
            / del_t T N) := by
  subst hN
  refine ⟨⟨v_length _ _, a_length _ _, j_length _ _⟩, ?_, ?_, ?_⟩
  · intro i hi
    exact dq_getD _ x i hi
  · intro i hi
    have : i < (v (del_t T x.length) x).length - 1 := by rw [v_length]; omega
    exact dq_getD _ (v (del_t T x.length) x) i this
  · intro i hi
    have : i < (a (del_t T x.length) x).length - 1 := by rw [a_length]; omega
    exact dq_getD _ (a (del_t T x.length) x) i this

/-- Witness for `kinematics_shape_and_formulas` at `T = 10`,
`x = [0, 1, 3, 6]`. -/
theorem kinematics_shape_and_formulas_witness :
    ([(0 : ℚ), 1, 3, 6] : Trajectory).length = 4 ∧ 4 ≤ 4 ∧
    (((v (del_t 10 4) [0, 1, 3, 6]).length = 4 - 1
      ∧ (a (del_t 10 4) [0, 1, 3, 6]).length = 4 - 2
      ∧ (j (del_t 10 4) [0, 1, 3, 6]).length = 4 - 3)
    ∧ (∀ i, i < 4 - 1 → (v (del_t 10 4) [0, 1, 3, 6]).getD i 0
        = (([(0 : ℚ), 1, 3, 6]).getD (i + 1) 0
            - ([(0 : ℚ), 1, 3, 6]).getD i 0) / del_t 10 4)
    ∧ (∀ i, i < 4 - 2 → (a (del_t 10 4) [0, 1, 3, 6]).getD i 0
        = ((v (del_t 10 4) [0, 1, 3, 6]).getD (i + 1) 0
            - (v (del_t 10 4) [0, 1, 3, 6]).getD i 0) / del_t 10 4)
    ∧ (∀ i, i < 4 - 3 → (j (del_t 10 4) [0, 1, 3, 6]).getD i 0
        = ((a (del_t 10 4) [0, 1, 3, 6]).getD (i + 1) 0
            - (a (del_t 10 4) [0, 1, 3, 6]).getD i 0) / del_t 10 4)) :=
  ⟨rfl, le_refl 4,
    kinematics_shape_and_formulas 10 [0, 1, 3, 6] 4 rfl (le_refl 4)⟩

lemma v_getD (dt : ℚ) (x : Trajectory) (i : ℕ) (h : i < x.length - 1) :
    (v dt x).getD i 0 = (x.getD (i + 1) 0 - x.getD i 0) / dt :=
  dq_getD dt x i h

lemma dq_of_const (dt w : ℚ) (y : List ℚ) (hw : ∀ t ∈ y, t = w) :
    ∀ e ∈ List.zipWith (fun p q => (p - q) / dt) y.tail y, e = 0 := by
  intro e he
  obtain ⟨i, hi, rfl⟩ := List.mem_iff_getElem.1 he
  have hi1 : i < y.length - 1 := by
    have := dq_length dt y
    omega
  have h2 : i < y.length := by omega
  have h3 : i + 1 < y.length := by omega
  have e2 : y.getD i 0 = w := by
    rw [List.getD_eq_getElem _ _ h2]
    exact hw _ (List.getElem_mem h2)
  have e1 : y.getD (i + 1) 0 = w := by
    rw [List.getD_eq_getElem _ _ h3]
    exact hw _ (List.getElem_mem h3)
  rw [show (List.zipWith (fun p q => (p - q) / dt) y.tail y)[i]
      = (List.zipWith (fun p q => (p - q) / dt) y.tail y).getD i 0 from
      (List.getD_eq_getElem _ _ hi).symm,
    dq_getD dt y i hi1, e1, e2, sub_self, zero_div]

lemma forall_map_sub_nonneg (c : ℚ) (l : List ℚ) :
    (∀ e ∈ l.map (fun t => c - t), 0 ≤ e)
      ↔ (∀ i, i < l.length → l.getD i 0 ≤ c) := by
  constructor
  · intro h i hi
    have hm : l.getD i 0 ∈ l := by
      rw [List.getD_eq_getElem _ _ hi]
      exact List.getElem_mem hi
    have := h _ (List.mem_map.2 ⟨_, hm, rfl⟩)
    linarith
  · intro h e he
    obtain ⟨t, ht, rfl⟩ := List.mem_map.1 he
    obtain ⟨i, hi, rfl⟩ := List.mem_iff_getElem.1 ht
    have := h i hi
    rw [List.getD_eq_getElem _ _ hi] at this
    linarith

lemma sum_map_sq_nonneg (g : ℚ → ℚ) (l : List ℚ) :
    0 ≤ (l.map (fun t => (g t)^2)).sum := by
  apply List.sum_nonneg
  intro e he
  obtain ⟨t, _, rfl⟩ := List.mem_map.1 he
  positivity

/-- **C5.** The velocity-limit constraint function is component-wise
non-negative iff every defined velocity sample is `≤ v_max`, and the
acceleration-limit constraint function is component-wise non-negative iff
every defined acceleration sample is `≤ a_max`. -/
theorem limit_constraints_componentwise (vmax amax dt : ℚ) (x : Trajectory) :
    ((∀ e ∈ cons_vel vmax dt x, 0 ≤ e)
      ↔ ∀ i, i < (v dt x).length → (v dt x).getD i 0 ≤ vmax)
    ∧ ((∀ e ∈ cons_acc amax dt x, 0 ≤ e)
      ↔ ∀ i, i < (a dt x).length → (a dt x).getD i 0 ≤ amax) :=
  ⟨forall_map_sub_nonneg vmax (v dt x), forall_map_sub_nonneg amax (a dt x)⟩

/-- The constant-velocity trajectory `s i = v·i·Δt` used by the spec's
algebraic property. -/
def ramp (vv dt : ℚ) (N : ℕ) : Trajectory :=
  (List.range N).map (fun i : ℕ => vv * (i : ℚ) * dt)

lemma ramp_length (vv dt : ℚ) (N : ℕ) : (ramp vv dt N).length = N := by
  simp only [ramp, List.length_map, List.length_range]

lemma getD_ramp (vv dt : ℚ) (N k : ℕ) (h : k < N) :
    (ramp vv dt N).getD k 0 = vv * (k : ℚ) * dt := by
  have hk : k < (ramp vv dt N).length := by
    rw [ramp_length]
    exact h
  rw [List.getD_eq_getElem _ _ hk]
  simp only [ramp, List.getElem_map, List.getElem_range]

lemma v_ramp_const (vv dt : ℚ) (N : ℕ) :
    ∀ t ∈ v dt (ramp vv dt N), t = vv * dt / dt := by
  intro t ht
  obtain ⟨i, hi, rfl⟩ := List.mem_iff_getElem.1 ht
  have hlen : (ramp vv dt N).length = N := ramp_length vv dt N
  have hlv : i < (ramp vv dt N).length - 1 := by
    have := v_length dt (ramp vv dt N)
    omega
  have hN : i + 1 < N := by omega
  rw [show (v dt (ramp vv dt N))[i] = (v dt (ramp vv dt N)).getD i 0 from
      (List.getD_eq_getElem _ _ hi).symm,
    v_getD dt _ i hlv, getD_ramp vv dt N (i + 1) hN,
    getD_ramp vv dt N i (by omega)]
  congr 1
  push_cast
  ring

/-- **C8.** A constant-velocity trajectory `s i = v·i·Δt` has identically zero
derived acceleration and identically zero derived jerk. -/
theorem const_velocity_zero_accel_jerk (vv dt : ℚ) (N : ℕ) :
    (∀ t ∈ a dt (ramp vv dt N), t = 0)
    ∧ (∀ t ∈ j dt (ramp vv dt N), t = 0) := by
  have hA : ∀ t ∈ a dt (ramp vv dt N), t = 0 :=
    dq_of_const dt (vv * dt / dt) _ (v_ramp_const vv dt N)
  have hJ : ∀ t ∈ j dt (ramp vv dt N), t = 0 :=
    dq_of_const dt 0 _ hA
  exact ⟨hA, hJ⟩

/-- **C10.** Adding a constant `c` to every position sample leaves velocity,
acceleration and jerk unchanged, and therefore leaves the cost `J` unchanged. -/
theorem translation_invariance (c dt v_des : ℚ) (x : Trajectory) :
    v dt (x.map (fun t => t + c)) = v dt x
    ∧ a dt (x.map (fun t => t + c)) = a dt x
    ∧ j dt (x.map (fun t => t + c)) = j dt x
    ∧ J dt v_des (x.map (fun t => t + c)) = J dt v_des x := by
  have hv : v dt (x.map (fun t => t + c)) = v dt x := by
    simp only [v]
    rw [show (x.map fun t => t + c).tail = x.tail.map (fun t => t + c) from
      (List.map_tail _ x).symm, List.zipWith_map]
    congr 1
    funext p q
    ring
  have ha : a dt (x.map (fun t => t + c)) = a dt x := by
    simp only [a, hv]
  have hj : j dt (x.map (fun t => t + c)) = j dt x := by
    simp only [j, ha]
  refine ⟨hv, ha, hj, ?_⟩
  simp only [J, hv, ha, hj]

/-- **C9.** The cost is non-negative: the code's unweighted `J` for `Δt > 0`,
and likewise the documented weighted formula for non-negative weights. -/
theorem cost_nonneg (w_v w_a w_j dt v_des : ℚ) (x : Trajectory)
    (hv : 0 ≤ w_v) (ha : 0 ≤ w_a) (hj : 0 ≤ w_j) (hdt : 0 < dt) :
    0 ≤ J dt v_des x ∧ 0 ≤ Jweighted w_v w_a w_j dt v_des x := by
  have s1 : 0 ≤ ((v dt x).map (fun t => (t - v_des)^2)).sum :=
    sum_map_sq_nonneg (fun t => t - v_des) (v dt x)
  have s2 : 0 ≤ ((a dt x).map (fun t => t^2)).sum :=
    sum_map_sq_nonneg (fun t => t) (a dt x)
  have s3 : 0 ≤ ((j dt x).map (fun t => t^2)).sum :=
    sum_map_sq_nonneg (fun t => t) (j dt x)
  constructor
  · apply mul_nonneg _ hdt.le
    apply mul_nonneg (by norm_num)
    linarith
  · apply mul_nonneg _ hdt.le
    apply mul_nonneg (by norm_num)
    have := mul_nonneg hv s1
    have := mul_nonneg ha s2
    have := mul_nonneg hj s3
    linarith

/-- Witness for `cost_nonneg` at weights `(1, 1, 1)`, `Δt = 1`, `v_des = 0`,
`x = [0, 1, 3, 6]`. -/
theorem cost_nonneg_witness :
    (0 : ℚ) ≤ 1 ∧ (0 : ℚ) < 1 ∧
    (0 ≤ J 1 0 [0, 1, 3, 6] ∧ 0 ≤ Jweighted 1 1 1 1 0 [0, 1, 3, 6]) :=
  ⟨by norm_num, by norm_num,
    cost_nonneg 1 1 1 1 0 [0, 1, 3, 6] (by norm_num) (by norm_num)
      (by norm_num) (by norm_num)⟩

/-- **C1.** The code's cost `J` does not apply the documented weights: at
`Δt = 1`, `v_des = 0`, `x = [0, 1, 3, 6]` the code returns `8`, while the
documented weighted formula with `(w_v, w_a, w_j) = (1, 0, 1)` gives `7`. -/
theorem cost_ignores_documented_weights :
    J 1 0 [0, 1, 3, 6] = 8 ∧ Jweighted 1 0 1 1 0 [0, 1, 3, 6] = 7
    ∧ J 1 0 [0, 1, 3, 6] ≠ Jweighted 1 0 1 1 0 [0, 1, 3, 6] := by
  refine ⟨?_, ?_, ?_⟩ <;> norm_num [J, Jweighted, v, a, j]

/-- **C3.** For a valid obstacle window, the obstacle constraint list is
component-wise non-negative iff the trajectory stays above `s_b` (mode
`true`), respectively below `s_a` (mode `false`), on every index of
`[t_a, t_b]`. -/
theorem obstacle_constraint_iff (ob : Obstacle) (mode : Bool) (x : Trajectory)
    (hw : ob.t_a ≤ ob.t_b) (_hb : ob.t_b < x.length) :
    (mode = true →
      ((∀ e ∈ pos_ves ob mode x, 0 ≤ e)
        ↔ ∀ i, ob.t_a ≤ i → i ≤ ob.t_b → ob.s_b ≤ x.getD i 0))
    ∧ (mode = false →
      ((∀ e ∈ pos_ves ob mode x, 0 ≤ e)
        ↔ ∀ i, ob.t_a ≤ i → i ≤ ob.t_b → x.getD i 0 ≤ ob.s_a)) := by
  constructor
  · intro hm
    subst hm
    constructor
    · intro h i hia hib
      have hk : i - ob.t_a < ob.t_b + 1 - ob.t_a := by omega
      have := h _ (List.mem_map.2 ⟨i - ob.t_a, List.mem_range.2 hk, rfl⟩)
      rw [if_pos rfl] at this
      have hi : ob.t_a + (i - ob.t_a) = i := by omega
      rw [hi] at this
      linarith
    · intro h e he
      obtain ⟨k, hk, rfl⟩ := List.mem_map.1 he
      rw [List.mem_range] at hk
      rw [if_pos rfl]
      have := h (ob.t_a + k) (by omega) (by omega)
      linarith
  · intro hm
    subst hm
    constructor
    · intro h i hia hib
      have hk : i - ob.t_a < ob.t_b + 1 - ob.t_a := by omega
      have := h _ (List.mem_map.2 ⟨i - ob.t_a, List.mem_range.2 hk, rfl⟩)
      rw [if_neg (by simp)] at this
      have hi : ob.t_a + (i - ob.t_a) = i := by omega
      rw [hi] at this
      linarith
    · intro h e he
      obtain ⟨k, hk, rfl⟩ := List.mem_map.1 he
      rw [List.mem_range] at hk
      rw [if_neg (by simp)]
      have := h (ob.t_a + k) (by omega) (by omega)
      linarith

/-- Witness for `obstacle_constraint_iff` at the obstacle `{1, 2, 5, 7}`,
mode `true`, and `x = [0, 10, 10, 0]`. -/
theorem obstacle_constraint_iff_witness :
    (Obstacle.mk 1 2 5 7).t_a ≤ (Obstacle.mk 1 2 5 7).t_b
    ∧ (Obstacle.mk 1 2 5 7).t_b < ([0, 10, 10, 0] : Trajectory).length
    ∧ ((true = true →
      ((∀ e ∈ pos_ves (Obstacle.mk 1 2 5 7) true [0, 10, 10, 0], 0 ≤ e)
        ↔ ∀ i, (Obstacle.mk 1 2 5 7).t_a ≤ i → i ≤ (Obstacle.mk 1 2 5 7).t_b
            → (Obstacle.mk 1 2 5 7).s_b ≤ ([0, 10, 10, 0] : Trajectory).getD i 0))
    ∧ (true = false →
      ((∀ e ∈ pos_ves (Obstacle.mk 1 2 5 7) true [0, 10, 10, 0], 0 ≤ e)
        ↔ ∀ i, (Obstacle.mk 1 2 5 7).t_a ≤ i → i ≤ (Obstacle.mk 1 2 5 7).t_b
            → ([0, 10, 10, 0] : Trajectory).getD i 0 ≤ (Obstacle.mk 1 2 5 7).s_a))) :=
  ⟨by decide, by decide,
    obstacle_constraint_iff (Obstacle.mk 1 2 5 7) true [0, 10, 10, 0]
      (by decide) (by decide)⟩

lemma a_getD (dt : ℚ) (x : Trajectory) (i : ℕ) (h : i < x.length - 2) :
    (a dt x).getD i 0 = ((v dt x).getD (i + 1) 0 - (v dt x).getD i 0) / dt := by
  have h2 : i < (v dt x).length - 1 := by
    rw [v_length]
    omega
  exact dq_getD dt (v dt x) i h2

lemma bounds_length (v0 a0 dt : ℚ) (N : ℕ) : (bounds v0 a0 dt N).length = N := by
  simp [bounds]

/-- **C4.** A trajectory whose first three entries meet the equality bounds
`s 0 = 0`, `s 1 = v0·Δt`, `s 2 = a0·Δt² + 2·v0·Δt` has finite-difference
`velocity 0 = v0` and `acceleration 0 = a0`; the bound list pins exactly
those three entries and gives indices `3 … N−1` the lower bound `0` with no
upper bound. -/
theorem initial_state_pinning (v0 a0 dt : ℚ) (x : Trajectory) (N : ℕ)
    (hx : 3 ≤ x.length) (hdt : dt ≠ 0)
    (h0 : x.getD 0 0 = 0) (h1 : x.getD 1 0 = v0 * dt)
    (h2 : x.getD 2 0 = a0 * dt^2 + 2 * v0 * dt) (hN : 3 ≤ N) :
    ((v dt x).getD 0 0 = v0 ∧ (a dt x).getD 0 0 = a0)
    ∧ ((bounds v0 a0 dt N).length = N
      ∧ (bounds v0 a0 dt N).getD 0 (0, none) = (0, some 0)
      ∧ (bounds v0 a0 dt N).getD 1 (0, none) = (v0 * dt, some (v0 * dt))
      ∧ (bounds v0 a0 dt N).getD 2 (0, none)
          = (a0 * dt^2 + 2 * v0 * dt, some (a0 * dt^2 + 2 * v0 * dt))
      ∧ ∀ i, 3 ≤ i → i < N → (bounds v0 a0 dt N).getD i (0, none) = (0, none)) := by
  have hv0 : (v dt x).getD 0 0 = v0 := by
    rw [v_getD dt x 0 (by omega), h1, h0]
    field_simp
  have hv1 : (v dt x).getD 1 0 = a0 * dt + v0 := by
    rw [v_getD dt x 1 (by omega), h2, h1]
    field_simp
    ring
  have ha0 : (a dt x).getD 0 0 = a0 := by
    rw [a_getD dt x 0 (by omega), hv1, hv0]
    field_simp
  have hblen : (bounds v0 a0 dt N).length = N := bounds_length v0 a0 dt N
  refine ⟨⟨hv0, ha0⟩, hblen, ?_, ?_, ?_, ?_⟩
  · rw [List.getD_eq_getElem _ _ (by omega)]
    simp [bounds, List.getElem_set]
  · rw [List.getD_eq_getElem _ _ (by omega)]
    simp [bounds, List.getElem_set]
  · rw [List.getD_eq_getElem _ _ (by omega)]
    simp [bounds, List.getElem_set]
  · intro i h3 hiN
    rw [List.getD_eq_getElem _ _ (by omega)]
    simp only [bounds, List.getElem_set]
    rw [if_neg (by omega), if_neg (by omega), if_neg (by omega),
      List.getElem_map]

/-- Witness for `initial_state_pinning` at `v0 = 1`, `a0 = 2`, `Δt = 1`,
`x = [0, 1, 4, 9]`, `N = 4`. -/
theorem initial_state_pinning_witness :
    3 ≤ ([0, 1, 4, 9] : Trajectory).length ∧ (1 : ℚ) ≠ 0
    ∧ ([0, 1, 4, 9] : Trajectory).getD 0 0 = 0
    ∧ ([0, 1, 4, 9] : Trajectory).getD 1 0 = 1 * 1
    ∧ ([0, 1, 4, 9] : Trajectory).getD 2 0 = 2 * 1^2 + 2 * 1 * 1
    ∧ 3 ≤ 4
    ∧ (((v 1 [0, 1, 4, 9]).getD 0 0 = 1 ∧ (a 1 [0, 1, 4, 9]).getD 0 0 = 2)
    ∧ ((bounds 1 2 1 4).length = 4
      ∧ (bounds 1 2 1 4).getD 0 (0, none) = (0, some 0)
      ∧ (bounds 1 2 1 4).getD 1 (0, none) = (1 * 1, some (1 * 1))
      ∧ (bounds 1 2 1 4).getD 2 (0, none)
          = (2 * 1^2 + 2 * 1 * 1, some (2 * 1^2 + 2 * 1 * 1))
      ∧ ∀ i, 3 ≤ i → i < 4 → (bounds 1 2 1 4).getD i (0, none) = (0, none))) :=
  ⟨by decide, by norm_num, by norm_num [List.getD], by norm_num [List.getD],
    by norm_num [List.getD], by decide,
    initial_state_pinning 1 2 1 [0, 1, 4, 9] 4 (by decide) (by norm_num)
      (by norm_num [List.getD]) (by norm_num [List.getD])
      (by norm_num [List.getD]) (by decide)⟩

lemma allModes_length (M : ℕ) : (allModes M).length = 2 ^ M := by
  induction M with
  | zero => rfl
  | succ n ih =>
    simp only [allModes, List.length_append, List.length_map, ih, pow_succ]
    ring

lemma allModes_mem_length (M : ℕ) : ∀ bs ∈ allModes M, bs.length = M := by
  induction M with
  | zero =>
    intro bs h
    simp only [allModes, List.mem_singleton] at h
    subst h
    rfl
  | succ n ih =>
    intro bs h
    simp only [allModes, List.mem_append, List.mem_map] at h
    rcases h with ⟨cs, hcs, rfl⟩ | ⟨cs, hcs, rfl⟩ <;>
      simp [ih cs hcs]

lemma allModes_nodup (M : ℕ) : (allModes M).Nodup := by
  induction M with
  | zero => simp [allModes]
  | succ n ih =>
    simp only [allModes]
    apply List.Nodup.append
    · exact ih.map (fun p q hpq => by injection hpq)
    · exact ih.map (fun p q hpq => by injection hpq)
    · rw [List.disjoint_left]
      intro bs h1 h2
      obtain ⟨p, _, rfl⟩ := List.mem_map.1 h1
      obtain ⟨q, _, heq⟩ := List.mem_map.1 h2
      exact Bool.noConfusion (List.head_eq_of_cons_eq heq.symm)

lemma allModes_complete (M : ℕ) :
    ∀ bs : List Bool, bs.length = M → bs ∈ allModes M := by
  induction M with
  | zero =>
    intro bs h
    rw [List.length_eq_zero] at h
    subst h
    simp [allModes]
  | succ n ih =>
    intro bs h
    cases bs with
    | nil => simp at h
    | cons b rest =>
      have hr : rest ∈ allModes n := ih rest (by simpa using h)
      cases b
      · exact List.mem_append_left _ (List.mem_map.2 ⟨rest, hr, rfl⟩)
      · exact List.mem_append_right _ (List.mem_map.2 ⟨rest, hr, rfl⟩)

/-- **C6.** For `M` obstacles below the cap the mode enumerator succeeds and
yields exactly `2^M` boolean mode vectors, pairwise distinct, each of length
`M`, covering every boolean assignment; for `M = 0` it yields exactly the one
trivial mode. -/
theorem mode_enumeration_complete (M : ℕ) (hM : M ≤ modeCap) :
    ModeEnumerator M = Except.ok (allModes M)
    ∧ (allModes M).length = 2 ^ M
    ∧ (allModes M).Nodup
    ∧ (∀ bs ∈ allModes M, bs.length = M)
    ∧ (∀ bs : List Bool, bs.length = M → bs ∈ allModes M)
    ∧ allModes 0 = [[]] := by
  refine ⟨?_, allModes_length M, allModes_nodup M, allModes_mem_length M,
    allModes_complete M, rfl⟩
  rw [ModeEnumerator, if_neg (by omega)]

/-- Witness for `mode_enumeration_complete` at `M = 2`. -/
theorem mode_enumeration_complete_witness :
    2 ≤ modeCap ∧
    (ModeEnumerator 2 = Except.ok (allModes 2)
    ∧ (allModes 2).length = 2 ^ 2
    ∧ (allModes 2).Nodup
    ∧ (∀ bs ∈ allModes 2, bs.length = 2)
    ∧ (∀ bs : List Bool, bs.length = 2 → bs ∈ allModes 2)
    ∧ allModes 0 = [[]]) :=
  ⟨by decide, mode_enumeration_complete 2 (by decide)⟩

/-- **C7.** A kinematic-model call on 3 samples fails with
`InsufficientSamples`; any call on at least 4 samples succeeds; and the only
possible error is `InsufficientSamples`, raised exactly when `N < 4`. -/
theorem insufficient_samples_boundary (dt : ℚ) (x : Trajectory) :
    (x.length = 3 → KinematicModel dt x
        = Except.error PlanError.InsufficientSamples)
    ∧ (4 ≤ x.length → KinematicModel dt x = Except.ok (v dt x, a dt x, j dt x))
    ∧ (∀ e, KinematicModel dt x = Except.error e
        → x.length < 4 ∧ e = PlanError.InsufficientSamples) := by
  refine ⟨?_, ?_, ?_⟩
  · intro h
    rw [KinematicModel, if_pos (by omega)]
  · intro h
    rw [KinematicModel, if_neg (by omega)]
  · intro e he
    by_cases hc : x.length < 4
    · rw [KinematicModel, if_pos hc] at he
      injection he with h
      exact ⟨hc, h.symm⟩
    · rw [KinematicModel, if_neg hc] at he
      exact absurd he (by simp)

/-- Witness for `insufficient_samples_boundary` at `Δt = 1`, `x = [0, 1, 2]`
(the `N = 3` failing boundary). -/
theorem insufficient_samples_boundary_witness :
    ([0, 1, 2] : Trajectory).length = 3
    ∧ KinematicModel 1 [0, 1, 2] = Except.error PlanError.InsufficientSamples :=
  ⟨rfl, (insufficient_samples_boundary 1 [0, 1, 2]).1 rfl⟩

end TP
